import Mathlib

/-!
Shallow embedding of `pyani/pyani_graphics.py` (module `pyani_graphics`).

The module renders pairwise similarity matrices as annotated heatmaps, in two
variants: `heatmap_seaborn` (library-backed) and `heatmap_mpl` (manual layout).
Real-valued program quantities (Python floats) are modelled as rationals `ℚ`;
identifiers and class/category names (Python strings) as `String`; Python
dictionaries as association lists with first-match lookup and dict-style
insertion (replace the existing key, otherwise append, matching CPython's
insertion-ordered dicts).  Third-party behaviour that the module merely
delegates to (the SciPy linkage/dendrogram routines, the metric used by
`scipy.spatial.distance.pdist`, the seaborn `cubehelix_palette` colour list) is
kept abstract: the corresponding definitions take those routines as explicit
function arguments, and theorems quantify over them.
-/

namespace PyaniGraphics

/-- A pandas DataFrame as used by this module: a matrix of scores whose rows
and columns are keyed by the same identifier list `index` (`dfr.index`), with
`values` the numeric entries (`dfr.values`), row-major. -/
structure DataFrame where
  index : List String
  values : List (List ℚ)

/-- Model of `dfr.shape[0]`: the number of rows of the DataFrame. -/
def DataFrame.shape0 (dfr : DataFrame) : ℕ := dfr.values.length

/-! ### Figure sizing (`heatmap_seaborn` lines 73–78, `heatmap_mpl` line 167) -/

/-- Line 73: `maxfigsize = 120` in `heatmap_seaborn`. -/
def maxfigsize : ℚ := 120

/-- Line 74: `calcfigsize = dfr.shape[0] * 1.1` in `heatmap_seaborn`. -/
def calcfigsize (dfr : DataFrame) : ℚ := (dfr.shape0 : ℚ) * (11 / 10)

/-- Line 75: `figsize = min(max(8, calcfigsize), maxfigsize)` in
`heatmap_seaborn`. -/
def figsize_seaborn (dfr : DataFrame) : ℚ :=
  min (max 8 (calcfigsize dfr)) maxfigsize

/-- The guard `figsize == maxfigsize` (line 76) in `heatmap_seaborn`: when it
holds the function calls `sns.set_context("notebook", font_scale=scale)`,
mutating the global seaborn plotting context. -/
def seaborn_sets_context (dfr : DataFrame) : Bool :=
  figsize_seaborn dfr = maxfigsize

/-- Line 77: `scale = maxfigsize/calcfigsize`, the font scale passed to
`sns.set_context` when the figure-size maximum is hit in `heatmap_seaborn`. -/
def seaborn_font_scale (dfr : DataFrame) : ℚ := maxfigsize / calcfigsize dfr

/-- Line 167: `figsize = max(8, dfsize * 0.175)` in `heatmap_mpl`; note that
unlike `heatmap_seaborn` there is no upper clamp here. -/
def figsize_mpl (dfr : DataFrame) : ℚ :=
  max 8 ((dfr.shape0 : ℚ) * (175 / 1000))

/-- A DataFrame with `n` rows (entries irrelevant to sizing), used to evaluate
the sizing formulas at concrete dimensions. -/
def dfOfDim (n : ℕ) : DataFrame :=
  ⟨List.replicate n "", List.replicate n []⟩

/-! ### Python dictionaries as association lists -/

/-- Python dict lookup `d[k]` / `d.get(k)`: first match in the association
list (keys are unique under dict insertion, so first match is the match);
`none` models a `KeyError` / a `.get` miss. -/
def dlookup {α : Type} (k : String) : List (String × α) → Option α
  | [] => none
  | (k', v) :: rest => if k' = k then some v else dlookup k rest

/-- Python dict assignment `d[k] = v`: replace the value at an existing key,
otherwise append at the end (CPython dicts preserve insertion order). -/
def dinsert {α : Type} (k : String) (v : α) : List (String × α) → List (String × α)
  | [] => [(k, v)]
  | (k', v') :: rest => if k' = k then (k, v) :: rest else (k', v') :: dinsert k v rest

/-! ### `heatmap_mpl` class-map extension (lines 217–221)

When `classes` is supplied, `heatmap_mpl` runs
`for name in dfr.index[coldend['leaves']]: if name not in classes:
classes[name] = name`, mutating the caller's dictionary in place. -/

/-- The class-map extension loop of `heatmap_mpl`: `names` is the clustered
index `dfr.index[coldend['leaves']]`; each name missing from `classes` is
added, mapped to itself.  The return value is the final state of the caller's
(mutated) `classes` dictionary. -/
def extendClasses : List String → List (String × String) → List (String × String)
  | [], classes => classes
  | name :: rest, classes =>
      extendClasses rest
        (if (dlookup name classes).isSome then classes else classes ++ [(name, name)])

/-! ### `heatmap_mpl` colour-scale bounds and colour-bar ticks (lines 150–160)

```
if vmin is None: vmin = dfr.values.min()
if vmax is None: vmax = dfr.values.max()
vdiff = max(vmax - vmin, 0.01)
cbticks = [vmin + e * vdiff for e in (0, 0.25, 0.5, 0.75, 1)]
if vmax > 10:
    exponent = int(floor(log10(vmax))) - 1
    cbticks = [int(round(e, -exponent)) for e in cbticks]
```
-/

/-- Model of `numpy.ndarray.min()` over the (flattened) entries: `none`
models the error numpy raises on an empty array. -/
def npmin : List ℚ → Option ℚ
  | [] => none
  | x :: xs => some (xs.foldl min x)

/-- Model of `numpy.ndarray.max()` over the (flattened) entries. -/
def npmax : List ℚ → Option ℚ
  | [] => none
  | x :: xs => some (xs.foldl max x)

/-- The effective colour-scale minimum of `heatmap_mpl` (lines 151–152): the
caller's `vmin` when supplied, otherwise `dfr.values.min()`. -/
def effVmin (vmin : Option ℚ) (dfr : DataFrame) : Option ℚ :=
  match vmin with
  | some v => some v
  | none => npmin dfr.values.flatten

/-- The effective colour-scale maximum of `heatmap_mpl` (lines 153–154). -/
def effVmax (vmax : Option ℚ) (dfr : DataFrame) : Option ℚ :=
  match vmax with
  | some v => some v
  | none => npmax dfr.values.flatten

/-- Line 156: `vdiff = max(vmax - vmin, 0.01)`. -/
def vdiff (vmin vmax : ℚ) : ℚ := max (vmax - vmin) (1 / 100)

/-- Line 157: `cbticks = [vmin + e * vdiff for e in (0, 0.25, 0.5, 0.75, 1)]`. -/
def rawTicks (vmin vmax : ℚ) : List ℚ :=
  [0, 1 / 4, 1 / 2, 3 / 4, 1].map (fun e => vmin + e * vdiff vmin vmax)

/-- Python's `round` to an integer: round to the nearest integer, ties to the
even integer (banker's rounding). -/
def roundHalfEven (q : ℚ) : ℤ :=
  if q - ⌊q⌋ < 1 / 2 then ⌊q⌋
  else if 1 / 2 < q - ⌊q⌋ then ⌊q⌋ + 1
  else if ⌊q⌋ % 2 = 0 then ⌊q⌋ else ⌊q⌋ + 1

/-- Line 160: `int(round(e, -exponent))`: round `e` to the nearest multiple
of `10 ^ exponent` (ties to the even multiple, as Python's `round` does). -/
def pyRoundMul (exponent : ℤ) (q : ℚ) : ℚ :=
  (roundHalfEven (q / (10 : ℚ) ^ exponent) : ℚ) * (10 : ℚ) ^ exponent

/-- The colour-bar ticks of `heatmap_mpl` (lines 156–160), with `Int.log 10`
as the model of `int(floor(log10(·)))`. -/
def cbticks (vmin vmax : ℚ) : List ℚ :=
  if 10 < vmax then
    (rawTicks vmin vmax).map (pyRoundMul (Int.log 10 vmax - 1))
  else rawTicks vmin vmax

/-- The colour-bar tick computation with its only failure mode made explicit:
`log10` (line 159) raises on a non-positive argument, modelled as `none`; it
is only evaluated under the guard `vmax > 10`. -/
def cbticksChecked (vmin vmax : ℚ) : Option (List ℚ) :=
  if 10 < vmax then
    if 0 < vmax then
      some ((rawTicks vmin vmax).map (pyRoundMul (Int.log 10 vmax - 1)))
    else none
  else some (rawTicks vmin vmax)

/-! ### Axis tick labels (`heatmap_seaborn` lines 102–107, `heatmap_mpl`
lines 258–264) -/

/-- Model of `labels.get(i, i)`: dictionary lookup with the raw identifier as
fallback. -/
def getLabel (ls : List (String × String)) (i : String) : String :=
  (dlookup i ls).getD i

/-- Lines 104–107 of `heatmap_seaborn`:
`newlabels = [labels.get(i, i) for i in dfr.index] if labels is not None
else [i for i in dfr.index]`. -/
def newlabels_seaborn (labels : Option (List (String × String)))
    (index : List String) : List String :=
  match labels with
  | some ls => index.map (fun i => getLabel ls i)
  | none => index.map (fun i => i)

/-- The per-identifier tick label of `heatmap_seaborn`. -/
def seabornTickLabel (labels : Option (List (String × String))) (i : String) : String :=
  match labels with
  | some ls => getLabel ls i
  | none => i

/-- Lines 259–264 of `heatmap_mpl`: the reordered identifiers are used as
tick labels, mapped through `labels.get(lab, lab)` under the Python-truthy
guard `if labels:` (false for `None` and for an empty dict alike). -/
def ticklabels_mpl (labels : Option (List (String × String)))
    (orderedIndex : List String) : List String :=
  match labels with
  | none => orderedIndex
  | some ls =>
      if ls = [] then orderedIndex
      else orderedIndex.map (fun lab => getLabel ls lab)

/-- The per-identifier tick label of `heatmap_mpl` (an empty label dict and a
missing entry both fall back to the raw identifier, so the truthiness guard
collapses). -/
def mplTickLabel (labels : Option (List (String × String))) (i : String) : String :=
  match labels with
  | none => i
  | some ls => getLabel ls i

/-! ### Class colour strips, seaborn variant (lines 87–100)

```
levels = sorted(list(set(classes.values())))
pal = sns.cubehelix_palette(len(levels), light=.9, dark=.1, reverse=True,
                            start=1, rot=-2)
paldict = {lvl: pal for (lvl, pal) in zip(levels, pal)}
lvl_pal = {cls: paldict[lvl] for (cls, lvl) in list(classes.items())}
col_cb = pd.Series(dfr.index).map(lvl_pal)
```
`col_cb` is then passed as BOTH `col_colors` and `row_colors` (line 112).
The palette call is deterministic (fixed parameters, fixed seed); it enters
the embedding abstractly as `palette : ℕ → List Color`, the colour list
returned for a requested size. -/

/-- Line 88: `sorted(list(set(classes.values())))` — the distinct class
categories in sorted order. -/
def levels (classes : List (String × String)) : List String :=
  ((classes.map Prod.snd).dedup).insertionSort (· ≤ ·)

/-- Line 92: `paldict = {lvl: pal for (lvl, pal) in zip(levels, pal)}` — the
category-to-colour dictionary (keys `levels` are already distinct, so the
comprehension never overwrites). -/
def paldict {Color : Type} (palette : ℕ → List Color)
    (classes : List (String × String)) : List (String × Color) :=
  (levels classes).zip (palette (levels classes).length)

/-- Line 93: `lvl_pal = {cls: paldict[lvl] for (cls, lvl) in classes.items()}`
— identifier to colour (the inner lookup is total when the palette has one
colour per level; `none` models its `KeyError`). -/
def lvl_pal {Color : Type} (palette : ℕ → List Color)
    (classes : List (String × String)) : List (String × Option Color) :=
  classes.map (fun p => (p.1, dlookup p.2 (paldict palette classes)))

/-- Line 94: `col_cb = pd.Series(dfr.index).map(lvl_pal)` — the per-position
colour series (a missing identifier maps to NaN, modelled `none`). -/
def col_cb {Color : Type} (palette : ℕ → List Color)
    (classes : List (String × String)) (index : List String) : List (Option Color) :=
  index.map (fun i => Option.join (dlookup i (lvl_pal palette classes)))

/-- Line 112: the series passed as `row_colors` is `col_cb` itself. -/
def seaborn_row_colors {Color : Type} (palette : ℕ → List Color)
    (classes : List (String × String)) (index : List String) : List (Option Color) :=
  col_cb palette classes index

/-- Line 112: the series passed as `col_colors` is `col_cb` itself. -/
def seaborn_col_colors {Color : Type} (palette : ℕ → List Color)
    (classes : List (String × String)) (index : List String) : List (Option Color) :=
  col_cb palette classes index

/-- The seaborn category-to-colour assignment: the colour paired with a
category in `paldict`. -/
def categoryColor {Color : Type} (palette : ℕ → List Color)
    (classes : List (String × String)) (cat : String) : Option Color :=
  dlookup cat (paldict palette classes)

/-! ### Class colour strips, mpl variant (lines 223–241)

```
classdict = {cls: idx for (idx, cls) in enumerate(classes.values())}
col_cblist = []
for name in dfr.index[coldend['leaves']]:
    try: col_cblist.append(classdict[classes[name]])
    except KeyError: col_cblist.append(classdict[name])
(row_cblist likewise over dfr.index[rowdend['leaves']])
```
-/

/-- Line 224: `classdict = {cls: idx for (idx, cls) in
enumerate(classes.values())}` — category to numerical colour value; a
duplicated category keeps the index of its last occurrence (dict overwrite). -/
def classdict (classes : List (String × String)) : List (String × ℕ) :=
  ((classes.map Prod.snd).enum).foldl (fun d p => dinsert p.2 p.1 d) []

/-- Lines 227–231: the numerical colour appended for `name` in the column
strip: `classdict[classes[name]]`, falling back to `classdict[name]` on
`KeyError` (either from `classes` or from `classdict`). -/
def mplColColor (classes : List (String × String)) (name : String) : Option ℕ :=
  match (dlookup name classes).bind (fun cls => dlookup cls (classdict classes)) with
  | some i => some i
  | none => dlookup name (classdict classes)

/-- Lines 235–240: the numerical colour appended for `name` in the row strip
(the same computation as the column strip, repeated in the source). -/
def mplRowColor (classes : List (String × String)) (name : String) : Option ℕ :=
  match (dlookup name classes).bind (fun cls => dlookup cls (classdict classes)) with
  | some i => some i
  | none => dlookup name (classdict classes)

/-- The column colour strip of `heatmap_mpl`: the class map is first extended
over the clustered index (lines 219–221), then each clustered-column name is
mapped to its numerical colour. -/
def mpl_col_cblist (classes : List (String × String))
    (colNames : List String) : List (Option ℕ) :=
  colNames.map (mplColColor (extendClasses colNames classes))

/-- The row colour strip of `heatmap_mpl`, over the clustered row names (the
class map was already extended using the clustered column index). -/
def mpl_row_cblist (classes : List (String × String))
    (colNames rowNames : List String) : List (Option ℕ) :=
  rowNames.map (mplRowColor (extendClasses colNames classes))

/-! ### Clustering and matrix reordering in `heatmap_mpl` (lines 176–209)

`coldists = distance.squareform(distance.pdist(dfr.T))` then
`colclusters = sch.linkage(coldists, method='complete')` and
`coldend = sch.dendrogram(colclusters, ...)`; likewise for rows with
`distance.pdist(dfr)`; finally
`heatmap_axes.imshow(dfr.ix[rowdend['leaves'], coldend['leaves']], ...)`.
The SciPy clustering enters the embedding as an abstract function
`linkLeaves` from a square distance matrix and a linkage-method string to
the dendrogram leaf order, and the `pdist` metric as an abstract
row-to-row distance `dist`. -/

/-- The entry of a row-major matrix at row `i`, column `j`. -/
def entry (m : List (List ℚ)) (i j : ℕ) : ℚ := (m.getD i []).getD j 0

/-- Line 176: `dfr.T` — matrix transpose; column `j` of the input becomes
row `j`. -/
def transposeM (m : List (List ℚ)) : List (List ℚ) :=
  (List.range (m.headD []).length).map (fun j => m.map (fun row => row.getD j 0))

/-- Lines 176 and 189: `distance.squareform(distance.pdist(X))` — the square
pairwise-distance matrix of the rows of `X` under the metric `dist` (the
module never overrides pdist's default metric, so it stays abstract);
`squareform` writes the diagonal as zero. -/
def squareformPdist (dist : List ℚ → List ℚ → ℚ)
    (rows : List (List ℚ)) : List (List ℚ) :=
  (List.range rows.length).map (fun i =>
    (List.range rows.length).map (fun j =>
      if i = j then 0 else dist (rows.getD i []) (rows.getD j [])))

/-- Lines 204–205: `dfr.ix[rowleaves, colleaves]` — the matrix with rows and
columns positionally reordered by the two leaf lists. -/
def reindex (m : List (List ℚ)) (rowOrder colOrder : List ℕ) : List (List ℚ) :=
  rowOrder.map (fun r => colOrder.map (fun c => entry m r c))

/-- Lines 189–199: the row leaf order — complete-linkage clustering of the
pairwise distances between the rows of `dfr`. -/
def rowLeaves (dist : List ℚ → List ℚ → ℚ)
    (linkLeaves : List (List ℚ) → String → List ℕ) (dfr : DataFrame) : List ℕ :=
  linkLeaves (squareformPdist dist dfr.values) "complete"

/-- Lines 176–185: the column leaf order — complete-linkage clustering of the
pairwise distances between the columns of `dfr` (the rows of `dfr.T`). -/
def colLeaves (dist : List ℚ → List ℚ → ℚ)
    (linkLeaves : List (List ℚ) → String → List ℕ) (dfr : DataFrame) : List ℕ :=
  linkLeaves (squareformPdist dist (transposeM dfr.values)) "complete"

/-- Lines 204–209: the matrix drawn by `heatmap_mpl`'s `imshow`. -/
def drawnMatrix (dist : List ℚ → List ℚ → ℚ)
    (linkLeaves : List (List ℚ) → String → List ℕ) (dfr : DataFrame) : List (List ℚ) :=
  reindex dfr.values (rowLeaves dist linkLeaves dfr) (colLeaves dist linkLeaves dfr)

/-- A concrete metric for witnesses: sum of componentwise absolute
differences. -/
def dist1 (r s : List ℚ) : ℚ := ((r.zip s).map (fun p => |p.1 - p.2|)).sum

/-- A concrete stand-in clustering for witnesses: leaves in input order. -/
def linkId (m : List (List ℚ)) (_method : String) : List ℕ := List.range m.length

/-- A concrete 2×2 DataFrame for witnesses. -/
def dfW : DataFrame := ⟨["a", "b"], [[2, 3], [1, 4]]⟩

/-! ### Helper lemmas -/

theorem dfOfDim_shape0 (n : ℕ) : (dfOfDim n).shape0 = n := by
  simp [dfOfDim, DataFrame.shape0]

theorem dlookup_append {α : Type} (k : String) (l₁ l₂ : List (String × α)) :
    dlookup k (l₁ ++ l₂) =
      match dlookup k l₁ with
      | some v => some v
      | none => dlookup k l₂ := by
  induction l₁ with
  | nil => simp [dlookup]
  | cons p rest ih =>
      obtain ⟨k', v⟩ := p
      by_cases h : k' = k <;> simp [dlookup, h, ih]

theorem extendClasses_preserves {names : List String}
    {classes : List (String × String)} {k : String} {v : String}
    (h : dlookup k classes = some v) :
    dlookup k (extendClasses names classes) = some v := by
  induction names generalizing classes with
  | nil => simpa [extendClasses] using h
  | cons name rest ih =>
      simp only [extendClasses]
      split
      · exact ih h
      · exact ih (by rw [dlookup_append, h])

theorem extendClasses_lookup_mem {names : List String}
    {classes : List (String × String)} {n : String} (hn : n ∈ names) :
    dlookup n (extendClasses names classes) = some ((dlookup n classes).getD n) := by
  induction names generalizing classes with
  | nil => cases hn
  | cons name rest ih =>
      simp only [extendClasses]
      rcases List.mem_cons.mp hn with rfl | hmem
      · cases hcl : dlookup n classes with
        | some v =>
            have : dlookup n (if (dlookup n classes).isSome then classes
                else classes ++ [(n, n)]) = some v := by
              simp [hcl]
            simpa [hcl] using extendClasses_preserves this
        | none =>
            have : dlookup n (if (dlookup n classes).isSome then classes
                else classes ++ [(n, n)]) = some n := by
              simp [hcl, dlookup_append, dlookup]
            simpa [hcl] using extendClasses_preserves this
      · by_cases heq : n = name
        · subst heq
          cases hcl : dlookup n classes with
          | some v =>
              have : dlookup n (if (dlookup n classes).isSome then classes
                  else classes ++ [(n, n)]) = some v := by simp [hcl]
              simpa [hcl] using extendClasses_preserves this
          | none =>
              have : dlookup n (if (dlookup n classes).isSome then classes
                  else classes ++ [(n, n)]) = some n := by
                simp [hcl, dlookup_append, dlookup]
              simpa [hcl] using extendClasses_preserves this
        · have hstep : dlookup n (if (dlookup name classes).isSome then classes
              else classes ++ [(name, name)]) = dlookup n classes := by
            split
            · rfl
            · rw [dlookup_append]
              have hne : name ≠ n := Ne.symm heq
              cases h : dlookup n classes with
              | some v => rfl
              | none => simp [dlookup, hne]
          rw [ih hmem, hstep]

theorem extendClasses_of_all_mem {names : List String}
    {classes : List (String × String)}
    (h : ∀ n ∈ names, (dlookup n classes).isSome) :
    extendClasses names classes = classes := by
  induction names with
  | nil => rfl
  | cons name rest ih =>
      simp only [extendClasses, h name (List.mem_cons_self name rest)]
      exact ih fun n hn => h n (List.mem_cons_of_mem _ hn)

theorem foldl_min_spec (xs : List ℚ) (x : ℚ) :
    xs.foldl min x ≤ x ∧ (∀ y ∈ xs, xs.foldl min x ≤ y) ∧
      (xs.foldl min x = x ∨ xs.foldl min x ∈ xs) := by
  induction xs generalizing x with
  | nil => exact ⟨le_refl x, by simp, Or.inl rfl⟩
  | cons y ys ih =>
      obtain ⟨h1, h2, h3⟩ := ih (min x y)
      refine ⟨le_trans h1 (min_le_left x y), ?_, ?_⟩
      · intro z hz
        rcases List.mem_cons.mp hz with rfl | hz'
        · exact le_trans h1 (min_le_right x z)
        · exact h2 z hz'
      · rcases h3 with h | h
        · rcases min_choice x y with hc | hc
          · exact Or.inl (by rw [List.foldl_cons, h, hc])
          · exact Or.inr (by rw [List.foldl_cons, h, hc]; exact List.mem_cons_self y ys)
        · exact Or.inr (List.mem_cons_of_mem y h)

theorem foldl_max_spec (xs : List ℚ) (x : ℚ) :
    x ≤ xs.foldl max x ∧ (∀ y ∈ xs, y ≤ xs.foldl max x) ∧
      (xs.foldl max x = x ∨ xs.foldl max x ∈ xs) := by
  induction xs generalizing x with
  | nil => exact ⟨le_refl x, by simp, Or.inl rfl⟩
  | cons y ys ih =>
      obtain ⟨h1, h2, h3⟩ := ih (max x y)
      refine ⟨le_trans (le_max_left x y) h1, ?_, ?_⟩
      · intro z hz
        rcases List.mem_cons.mp hz with rfl | hz'
        · exact le_trans (le_max_right x z) h1
        · exact h2 z hz'
      · rcases h3 with h | h
        · rcases max_choice x y with hc | hc
          · exact Or.inl (by rw [List.foldl_cons, h, hc])
          · exact Or.inr (by rw [List.foldl_cons, h, hc]; exact List.mem_cons_self y ys)
        · exact Or.inr (List.mem_cons_of_mem y h)

theorem npmin_spec {xs : List ℚ} (h : xs ≠ []) :
    (npmin xs).isSome ∧ (npmin xs).getD 0 ∈ xs ∧
      ∀ y ∈ xs, (npmin xs).getD 0 ≤ y := by
  cases xs with
  | nil => exact absurd rfl h
  | cons x rest =>
      obtain ⟨h1, h2, h3⟩ := foldl_min_spec rest x
      simp only [npmin, Option.getD_some, Option.isSome_some]
      refine ⟨trivial, ?_, ?_⟩
      · rcases h3 with hc | hc
        · rw [hc]; exact List.mem_cons_self x rest
        · exact List.mem_cons_of_mem x hc
      · intro y hy
        rcases List.mem_cons.mp hy with rfl | hy'
        · exact h1
        · exact h2 y hy'

theorem npmax_spec {xs : List ℚ} (h : xs ≠ []) :
    (npmax xs).isSome ∧ (npmax xs).getD 0 ∈ xs ∧
      ∀ y ∈ xs, y ≤ (npmax xs).getD 0 := by
  cases xs with
  | nil => exact absurd rfl h
  | cons x rest =>
      obtain ⟨h1, h2, h3⟩ := foldl_max_spec rest x
      simp only [npmax, Option.getD_some, Option.isSome_some]
      refine ⟨trivial, ?_, ?_⟩
      · rcases h3 with hc | hc
        · rw [hc]; exact List.mem_cons_self x rest
        · exact List.mem_cons_of_mem x hc
      · intro y hy
        rcases List.mem_cons.mp hy with rfl | hy'
        · exact h1
        · exact h2 y hy'

theorem roundHalfEven_abs (q : ℚ) : |(roundHalfEven q : ℚ) - q| ≤ 1 / 2 := by
  have h0 : ((⌊q⌋ : ℚ)) ≤ q := Int.floor_le q
  have h1 : q < ⌊q⌋ + 1 := Int.lt_floor_add_one q
  rw [roundHalfEven]
  split
  next hlt => rw [abs_le]; constructor <;> linarith
  next hge =>
    split
    next hgt => rw [abs_le]; push_cast; constructor <;> linarith
    next hle =>
      have heq : q - ⌊q⌋ = 1 / 2 := le_antisymm (not_lt.mp hle) (not_lt.mp hge)
      split <;> (rw [abs_le]; push_cast; constructor <;> linarith)

theorem pyRoundMul_spec (exponent : ℤ) (q : ℚ) :
    (∃ k : ℤ, pyRoundMul exponent q = (k : ℚ) * (10 : ℚ) ^ exponent) ∧
      |pyRoundMul exponent q - q| ≤ (10 : ℚ) ^ exponent / 2 := by
  have hpos : (0 : ℚ) < (10 : ℚ) ^ exponent := zpow_pos (by norm_num) _
  refine ⟨⟨roundHalfEven (q / (10 : ℚ) ^ exponent), rfl⟩, ?_⟩
  have habs := roundHalfEven_abs (q / (10 : ℚ) ^ exponent)
  have hsplit : pyRoundMul exponent q - q =
      ((roundHalfEven (q / (10 : ℚ) ^ exponent) : ℚ) - q / (10 : ℚ) ^ exponent) *
        (10 : ℚ) ^ exponent := by
    rw [pyRoundMul, sub_mul, div_mul_cancel₀ _ (ne_of_gt hpos)]
  rw [hsplit, abs_mul, abs_of_pos hpos]
  calc |(roundHalfEven (q / (10 : ℚ) ^ exponent) : ℚ) - q / (10 : ℚ) ^ exponent| *
        (10 : ℚ) ^ exponent
      ≤ (1 / 2) * (10 : ℚ) ^ exponent := by
        exact mul_le_mul_of_nonneg_right habs (le_of_lt hpos)
    _ = (10 : ℚ) ^ exponent / 2 := by ring

/-! ### Claims C1–C3 -/

/-- Claim C1, counterexample: the claim asserts both rendering variants clamp
the figure size below the configured maximum (120), but `heatmap_mpl` computes
`figsize = max(8, dfsize * 0.175)` with no upper clamp: for a 1000-row matrix
the mpl figure size is 175, above the maximum bound. -/
theorem C1_counterexample :
    figsize_mpl (dfOfDim 1000) = 175 ∧ ¬ figsize_mpl (dfOfDim 1000) ≤ maxfigsize := by
  rw [figsize_mpl, dfOfDim_shape0, maxfigsize, max_def]
  norm_num

/-- Claim C1, amended: in `heatmap_seaborn` the figure size is clamped between
8 and the maximum 120, and when the maximum is hit the font scale
`maxfigsize/calcfigsize` is at most 1 (reduced, compensating); in
`heatmap_mpl` the figure size is only bounded below by 8, with no maximum and
no font-scale compensation. -/
theorem C1_amended (dfr : DataFrame) :
    8 ≤ figsize_seaborn dfr ∧ figsize_seaborn dfr ≤ maxfigsize ∧
      (figsize_seaborn dfr = maxfigsize → seaborn_font_scale dfr ≤ 1) ∧
      8 ≤ figsize_mpl dfr := by
  refine ⟨?_, min_le_right _ _, ?_, le_max_left _ _⟩
  · exact le_min (le_max_left _ _) (by norm_num [maxfigsize])
  · intro h
    have h1 : (120 : ℚ) ≤ max 8 (calcfigsize dfr) := by
      have := min_eq_right_iff.mp h
      simpa [maxfigsize] using this
    have h2 : (120 : ℚ) ≤ calcfigsize dfr := by
      rcases le_max_iff.mp h1 with h' | h'
      · norm_num at h'
      · exact h'
    have hpos : (0 : ℚ) < calcfigsize dfr := by linarith
    rw [seaborn_font_scale, maxfigsize, div_le_one hpos]
    exact h2

/-- Claim C1, witness: at a 110-row matrix the seaborn figure size hits the
maximum, so the font-scale bound applies concretely. -/
theorem C1_witness :
    seaborn_font_scale (dfOfDim 110) ≤ 1 ∧ 8 ≤ figsize_mpl (dfOfDim 110) :=
  ⟨(C1_amended (dfOfDim 110)).2.2.1 (by
      rw [figsize_seaborn, calcfigsize, dfOfDim_shape0, maxfigsize, max_def, min_def]
      norm_num),
    (C1_amended (dfOfDim 110)).2.2.2⟩

/-- Claim C2, counterexample: the claim asserts no input argument is altered,
but when a class map is supplied `heatmap_mpl` mutates the caller's `classes`
dictionary in place (lines 217–221): with index `["a"]` and an empty class
map, the class map afterwards contains the new entry `("a", "a")`. -/
theorem C2_counterexample :
    extendClasses ["a"] [] = [("a", "a")] ∧ extendClasses ["a"] [] ≠ [] := by
  constructor
  · rfl
  · intro h
    simp [extendClasses, dlookup] at h

/-- Claim C2, amended: `heatmap_seaborn` mutates no input, and `heatmap_mpl`
leaves the matrix and label map unchanged; but when a class map is supplied,
`heatmap_mpl` adds an entry `name ↦ name` to the caller's class map for every
identifier of the clustered index missing from it.  Precisely: a class map
already covering every identifier is returned unchanged; existing entries are
never altered; and afterwards every identifier `n` of the index maps to its
original class when one existed, and to `n` itself otherwise. -/
theorem C2_amended (names : List String) (classes : List (String × String)) :
    ((∀ n ∈ names, (dlookup n classes).isSome) → extendClasses names classes = classes) ∧
      (∀ k v, dlookup k classes = some v →
        dlookup k (extendClasses names classes) = some v) ∧
      (∀ n ∈ names,
        dlookup n (extendClasses names classes) = some ((dlookup n classes).getD n)) :=
  ⟨fun h => extendClasses_of_all_mem h,
   fun _ _ h => extendClasses_preserves h,
   fun _ hn => extendClasses_lookup_mem hn⟩

/-- Claim C2, witness: with index `["a", "b"]` and class map `[("a", "x")]`,
the existing entry for `"a"` is preserved and the missing identifier `"b"` is
added mapped to itself. -/
theorem C2_witness :
    dlookup "a" (extendClasses ["a", "b"] [("a", "x")]) = some "x" ∧
      dlookup "b" (extendClasses ["a", "b"] [("a", "x")]) = some "b" :=
  ⟨(C2_amended ["a", "b"] [("a", "x")]).2.1 "a" "x" (by rfl),
   by
    have h := (C2_amended ["a", "b"] [("a", "x")]).2.2 "b" (by simp)
    exact h.trans (by rfl)⟩

/-- Claim C3, counterexample: the claim asserts no rendering call writes any
global plotting-library configuration besides the load-time colormap
registration; but `heatmap_seaborn` on a 110-row matrix hits the maximum
figure size and then calls `sns.set_context("notebook", font_scale=scale)`,
writing the global seaborn plotting context during the call. -/
theorem C3_counterexample : seaborn_sets_context (dfOfDim 110) = true := by
  rw [seaborn_sets_context, figsize_seaborn, calcfigsize, dfOfDim_shape0, maxfigsize,
    max_def, min_def]
  norm_num

/-- Claim C3, amended: besides the load-time colormap registration, there is
exactly one other write to global plotting-library state: `heatmap_seaborn`
sets the global seaborn context precisely when the computed figure size
`dfr.shape[0] * 1.1` reaches the maximum 120 (i.e. on matrices of dimension at
least 110); `heatmap_mpl` performs no such write. -/
theorem C3_amended (dfr : DataFrame) :
    seaborn_sets_context dfr = true ↔ 120 ≤ calcfigsize dfr := by
  rw [seaborn_sets_context, figsize_seaborn, maxfigsize, decide_eq_true_eq,
    min_eq_right_iff, le_max_iff]
  constructor
  · rintro (h | h)
    · norm_num at h
    · exact h
  · exact fun h => Or.inr h

/-- Claim C3, witness: the criterion applied at a concrete 110-row matrix. -/
theorem C3_witness : seaborn_sets_context (dfOfDim 110) = true :=
  (C3_amended (dfOfDim 110)).mpr (by rw [calcfigsize, dfOfDim_shape0]; norm_num)

/-! ### Claims C4, C8, C10 -/

/-- Claim C4: when the effective maximum equals the effective minimum, the
scale width is floored at 0.01 (`vdiff = max(0, 0.01) = 0.01`) and the whole
colour-bar tick computation succeeds (its only failure mode, `log10` of a
non-positive value, sits under the guard `vmax > 10` and so cannot fire). -/
theorem C4_tick_computation_total (vmin vmax : ℚ) (h : vmax = vmin) :
    vdiff vmin vmax = 1 / 100 ∧
      cbticksChecked vmin vmax = some (cbticks vmin vmax) := by
  subst h
  constructor
  · rw [vdiff, sub_self]
    exact max_eq_right (by norm_num)
  · by_cases hv : (10 : ℚ) < vmax
    · rw [cbticksChecked, cbticks, if_pos hv, if_pos hv,
        if_pos (by linarith : (0 : ℚ) < vmax)]
    · rw [cbticksChecked, cbticks, if_neg hv, if_neg hv]

/-- Claim C4, witness: the zero-width range at `vmin = vmax = 5`. -/
theorem C4_witness :
    vdiff 5 5 = 1 / 100 ∧ cbticksChecked 5 5 = some (cbticks 5 5) :=
  C4_tick_computation_total 5 5 rfl

/-- Claim C8: the raw colour-bar ticks are the five quarter points
`vmin + e * vdiff` for `e ∈ {0, 1/4, 1/2, 3/4, 1}` with
`vdiff = max(vmax - vmin, 0.01)`; when `vmax ≤ 10` they are used as they are,
and when `vmax > 10` each tick is rounded to a multiple of
`10 ^ (⌊log10 vmax⌋ - 1)` at distance at most half that modulus (the nearest
multiple, ties to even), the modulus growing with the magnitude of `vmax`
(the two `zpow` bounds witness that `Int.log 10 vmax` is exactly
`⌊log10 vmax⌋`). -/
theorem C8_cbticks_rounding (vmin vmax : ℚ) :
    rawTicks vmin vmax =
      [vmin + 0 * vdiff vmin vmax, vmin + 1 / 4 * vdiff vmin vmax,
        vmin + 1 / 2 * vdiff vmin vmax, vmin + 3 / 4 * vdiff vmin vmax,
        vmin + 1 * vdiff vmin vmax] ∧
      (¬ 10 < vmax → cbticks vmin vmax = rawTicks vmin vmax) ∧
      (10 < vmax →
        (10 : ℚ) ^ Int.log 10 vmax ≤ vmax ∧
        vmax < (10 : ℚ) ^ (Int.log 10 vmax + 1) ∧
        cbticks vmin vmax =
          (rawTicks vmin vmax).map (pyRoundMul (Int.log 10 vmax - 1)) ∧
        ∀ q ∈ rawTicks vmin vmax, ∃ k : ℤ,
          pyRoundMul (Int.log 10 vmax - 1) q =
            (k : ℚ) * (10 : ℚ) ^ (Int.log 10 vmax - 1) ∧
          |pyRoundMul (Int.log 10 vmax - 1) q - q| ≤
            (10 : ℚ) ^ (Int.log 10 vmax - 1) / 2) := by
  refine ⟨rfl, fun h => by rw [cbticks, if_neg h], fun h => ?_⟩
  have hbase : ((10 : ℕ) : ℚ) = (10 : ℚ) := by norm_num
  refine ⟨?_, ?_, by rw [cbticks, if_pos h], ?_⟩
  · have := Int.zpow_log_le_self (b := 10) (r := vmax) (by norm_num) (by linarith)
    rwa [hbase] at this
  · have := Int.lt_zpow_succ_log_self (b := 10) (r := vmax) (by norm_num)
    rwa [hbase] at this
  · intro q _
    obtain ⟨⟨k, hk⟩, habs⟩ := pyRoundMul_spec (Int.log 10 vmax - 1) q
    exact ⟨k, hk, habs⟩

/-- Claim C8, witness: at `vmin = 0, vmax = 5` the ticks are unrounded; at
`vmin = 0, vmax = 100` (so `⌊log10 vmax⌋ - 1 = 1`) the rounding applies, and
the raw tick 25 is sent to a multiple of 10 within 5 of it. -/
theorem C8_witness :
    cbticks 0 5 = rawTicks 0 5 ∧
      cbticks 0 100 = (rawTicks 0 100).map (pyRoundMul (Int.log 10 (100 : ℚ) - 1)) ∧
      ∃ k : ℤ,
        pyRoundMul (Int.log 10 (100 : ℚ) - 1) 25 =
          (k : ℚ) * (10 : ℚ) ^ (Int.log 10 (100 : ℚ) - 1) ∧
        |pyRoundMul (Int.log 10 (100 : ℚ) - 1) 25 - 25| ≤
          (10 : ℚ) ^ (Int.log 10 (100 : ℚ) - 1) / 2 := by
  refine ⟨(C8_cbticks_rounding 0 5).2.1 (by norm_num),
    ((C8_cbticks_rounding 0 100).2.2 (by norm_num)).2.2.1, ?_⟩
  have h25 : (25 : ℚ) ∈ rawTicks 0 100 := by
    simp only [rawTicks, vdiff]
    rw [max_def]
    norm_num
  exact ((C8_cbticks_rounding 0 100).2.2 (by norm_num)).2.2.2 25 h25

/-- Claim C10: a caller-supplied colour-scale bound is used unchanged, and a
missing bound defaults to the global minimum (respectively maximum) entry of
the matrix: on a nonempty matrix the default is an entry of the matrix that
bounds every entry from below (respectively above). -/
theorem C10_bounds_default (dfr : DataFrame) (v : ℚ) :
    effVmin (some v) dfr = some v ∧ effVmax (some v) dfr = some v ∧
      (dfr.values.flatten ≠ [] →
        (effVmin none dfr).isSome ∧
        (effVmin none dfr).getD 0 ∈ dfr.values.flatten ∧
        (∀ x ∈ dfr.values.flatten, (effVmin none dfr).getD 0 ≤ x) ∧
        (effVmax none dfr).isSome ∧
        (effVmax none dfr).getD 0 ∈ dfr.values.flatten ∧
        (∀ x ∈ dfr.values.flatten, x ≤ (effVmax none dfr).getD 0)) := by
  refine ⟨rfl, rfl, fun hne => ?_⟩
  obtain ⟨h1, h2, h3⟩ := npmin_spec hne
  obtain ⟨h4, h5, h6⟩ := npmax_spec hne
  exact ⟨h1, h2, h3, h4, h5, h6⟩

/-- Claim C10, witness: on the concrete matrix `[[2, 3], [1, 4]]` the
defaulted bounds are entries bounding all entries, and a supplied bound
passes through unchanged. -/
theorem C10_witness :
    effVmin (some 5) dfW = some 5 ∧
      (effVmin none dfW).getD 0 ∈ dfW.values.flatten ∧
      (∀ x ∈ dfW.values.flatten, (effVmin none dfW).getD 0 ≤ x) ∧
      (effVmax none dfW).getD 0 ∈ dfW.values.flatten ∧
      (∀ x ∈ dfW.values.flatten, x ≤ (effVmax none dfW).getD 0) := by
  have h := C10_bounds_default dfW 5
  have hne : dfW.values.flatten ≠ [] := by simp [dfW]
  exact ⟨h.1, (h.2.2 hne).2.1, (h.2.2 hne).2.2.1, (h.2.2 hne).2.2.2.2.1,
    (h.2.2 hne).2.2.2.2.2⟩

/-! ### Claim C5 -/

theorem map_self_of_id {α : Type} {f : α → α} (hf : ∀ a, f a = a) (l : List α) :
    l.map f = l := by
  induction l with
  | nil => rfl
  | cons a t ih => rw [List.map_cons, hf, ih]

/-- Claim C5: in both variants the axis tick labels are the per-identifier
label maps over the (respectively raw and clustered) index, and for every
identifier: with no label map the label is the raw identifier; with a label
map lacking the identifier it falls back to the raw identifier; with an entry
present it is the mapped display string. -/
theorem C5_label_fallback (labels : Option (List (String × String)))
    (index : List String) :
    newlabels_seaborn labels index = index.map (seabornTickLabel labels) ∧
      ticklabels_mpl labels index = index.map (mplTickLabel labels) ∧
      ∀ i : String,
        (labels = none → seabornTickLabel labels i = i ∧ mplTickLabel labels i = i) ∧
        (∀ ls, labels = some ls → dlookup i ls = none →
          seabornTickLabel labels i = i ∧ mplTickLabel labels i = i) ∧
        (∀ ls v, labels = some ls → dlookup i ls = some v →
          seabornTickLabel labels i = v ∧ mplTickLabel labels i = v) := by
  refine ⟨?_, ?_, ?_⟩
  · cases labels <;> rfl
  · cases labels with
    | none => exact (map_self_of_id (fun i => rfl) index).symm
    | some ls =>
        by_cases h : ls = []
        · subst h
          simp only [ticklabels_mpl, if_pos rfl]
          exact (map_self_of_id (fun i => rfl) index).symm
        · simp only [ticklabels_mpl, if_neg h]
          have hfun : (fun lab => getLabel ls lab) = mplTickLabel (some ls) :=
            funext fun lab => rfl
          rw [hfun]
  · intro i
    refine ⟨?_, ?_, ?_⟩
    · rintro rfl
      exact ⟨rfl, rfl⟩
    · rintro ls rfl hmiss
      constructor <;> simp [seabornTickLabel, mplTickLabel, getLabel, hmiss]
    · rintro ls v rfl hhit
      constructor <;> simp [seabornTickLabel, mplTickLabel, getLabel, hhit]

/-- Claim C5, witness: with label map `[("a", "Alpha")]` over index
`["a", "b"]`, identifier `"a"` is displayed as `"Alpha"`, the unmapped `"b"`
falls back to itself, and with no label map the raw identifiers are used. -/
theorem C5_witness :
    newlabels_seaborn (some [("a", "Alpha")]) ["a", "b"] =
      ["a", "b"].map (seabornTickLabel (some [("a", "Alpha")])) ∧
      seabornTickLabel (some [("a", "Alpha")]) "a" = "Alpha" ∧
      mplTickLabel (some [("a", "Alpha")]) "b" = "b" ∧
      seabornTickLabel none "b" = "b" := by
  refine ⟨(C5_label_fallback (some [("a", "Alpha")]) ["a", "b"]).1, ?_, ?_, ?_⟩
  · exact (((C5_label_fallback (some [("a", "Alpha")]) ["a", "b"]).2.2 "a").2.2
      [("a", "Alpha")] "Alpha" rfl (by rfl)).1
  · exact (((C5_label_fallback (some [("a", "Alpha")]) ["a", "b"]).2.2 "b").2.1
      [("a", "Alpha")] rfl (by rfl)).2
  · exact (((C5_label_fallback none ["a", "b"]).2.2 "b").1 rfl).1

/-! ### Claims C6 and C7 -/

theorem dlookup_isSome_iff {α : Type} (k : String) (l : List (String × α)) :
    (dlookup k l).isSome = true ↔ k ∈ l.map Prod.fst := by
  induction l with
  | nil => simp [dlookup]
  | cons p rest ih =>
      obtain ⟨k', v⟩ := p
      by_cases h : k' = k
      · subst h; simp [dlookup]
      · have h' : ¬ k = k' := fun hh => h hh.symm
        simp [dlookup, h, h', ih]

theorem mem_keys_dinsert {α : Type} (k c : String) (v : α) (d : List (String × α)) :
    k ∈ (dinsert c v d).map Prod.fst ↔ k = c ∨ k ∈ d.map Prod.fst := by
  induction d with
  | nil => simp [dinsert]
  | cons p rest ih =>
      obtain ⟨k', v'⟩ := p
      by_cases h : k' = c
      · subst h
        simp [dinsert]
      · simp [dinsert, h, ih]
        tauto

theorem nodup_keys_dinsert {α : Type} (c : String) (v : α) (d : List (String × α))
    (hd : (d.map Prod.fst).Nodup) : ((dinsert c v d).map Prod.fst).Nodup := by
  induction d with
  | nil => simp [dinsert]
  | cons p rest ih =>
      obtain ⟨k', v'⟩ := p
      simp only [List.map_cons, List.nodup_cons] at hd
      by_cases h : k' = c
      · subst h
        simpa [dinsert] using hd
      · simp only [dinsert, if_neg h, List.map_cons, List.nodup_cons]
        refine ⟨?_, ih hd.2⟩
        intro hmem
        rcases (mem_keys_dinsert _ _ _ _).mp hmem with rfl | hm
        · exact h rfl
        · exact hd.1 hm

theorem classdict_fold_nodup (l : List (ℕ × String)) (d : List (String × ℕ))
    (hd : (d.map Prod.fst).Nodup) :
    ((l.foldl (fun d p => dinsert p.2 p.1 d) d).map Prod.fst).Nodup := by
  induction l generalizing d with
  | nil => exact hd
  | cons p t ih => exact ih _ (nodup_keys_dinsert _ _ _ hd)

theorem classdict_fold_mem (l : List (ℕ × String)) (d : List (String × ℕ)) (k : String)
    (h : k ∈ d.map Prod.fst ∨ k ∈ l.map Prod.snd) :
    k ∈ (l.foldl (fun d p => dinsert p.2 p.1 d) d).map Prod.fst := by
  induction l generalizing d with
  | nil =>
      rcases h with h | h
      · exact h
      · simp at h
  | cons p t ih =>
      apply ih
      rcases h with h | h
      · exact Or.inl ((mem_keys_dinsert _ _ _ _).mpr (Or.inr h))
      · rw [List.map_cons] at h
        rcases List.mem_cons.mp h with rfl | hm
        · exact Or.inl ((mem_keys_dinsert _ _ _ _).mpr (Or.inl rfl))
        · exact Or.inr hm

theorem classdict_keys_nodup (classes : List (String × String)) :
    ((classdict classes).map Prod.fst).Nodup :=
  classdict_fold_nodup _ [] (by simp)

theorem classdict_mem_keys (classes : List (String × String)) (cat : String)
    (h : cat ∈ classes.map Prod.snd) : cat ∈ (classdict classes).map Prod.fst := by
  apply classdict_fold_mem
  right
  rw [List.enum_map_snd]
  exact h

theorem levels_nodup (classes : List (String × String)) : (levels classes).Nodup :=
  (List.perm_insertionSort _ _).nodup_iff.mpr (List.nodup_dedup _)

theorem mem_levels (classes : List (String × String)) (cat : String)
    (h : cat ∈ classes.map Prod.snd) : cat ∈ levels classes :=
  (List.perm_insertionSort _ _).mem_iff.mpr (List.mem_dedup.mpr h)

theorem paldict_keys {Color : Type} (palette : ℕ → List Color)
    (hpal : ∀ n, (palette n).length = n) (classes : List (String × String)) :
    (paldict palette classes).map Prod.fst = levels classes :=
  List.map_fst_zip _ _ (le_of_eq (hpal _).symm)

theorem levels_toFinset (classes : List (String × String)) :
    (levels classes).toFinset = (classes.map Prod.snd).toFinset := by
  calc (levels classes).toFinset
      = ((classes.map Prod.snd).dedup).toFinset :=
        List.toFinset_eq_of_perm _ _
          (List.perm_insertionSort (· ≤ ·) ((classes.map Prod.snd).dedup))
    _ = (classes.map Prod.snd).toFinset := by
        ext a
        simp [List.mem_dedup]

/-- Claim C6: with a non-empty class map, in `heatmap_seaborn` the keys of
the category-to-colour dictionary are exactly the distinct sorted categories
(each appearing once), every category of the class map receives a colour, and
the row-colour series is the very column-colour series; in `heatmap_mpl` the
class-to-index dictionary likewise has each distinct category exactly once
with every category covered, and the row strip assigns each identifier the
same numerical colour as the column strip. -/
theorem C6_one_color_per_category {Color : Type} (palette : ℕ → List Color)
    (hpal : ∀ n, (palette n).length = n)
    (classes : List (String × String)) (_hne : classes ≠ [])
    (index colNames rowNames : List String) :
    (paldict palette classes).map Prod.fst = levels classes ∧
      (levels classes).Nodup ∧
      (∀ cat ∈ classes.map Prod.snd,
        (dlookup cat (paldict palette classes)).isSome = true) ∧
      seaborn_row_colors palette classes index = seaborn_col_colors palette classes index ∧
      ((classdict (extendClasses colNames classes)).map Prod.fst).Nodup ∧
      (∀ cat ∈ (extendClasses colNames classes).map Prod.snd,
        (dlookup cat (classdict (extendClasses colNames classes))).isSome = true) ∧
      (∀ name, mplRowColor (extendClasses colNames classes) name =
        mplColColor (extendClasses colNames classes) name) ∧
      mpl_row_cblist classes colNames rowNames =
        rowNames.map (mplColColor (extendClasses colNames classes)) := by
  refine ⟨paldict_keys palette hpal classes, levels_nodup classes, ?_, rfl,
    classdict_keys_nodup _, ?_, fun name => rfl, rfl⟩
  · intro cat hcat
    rw [dlookup_isSome_iff, paldict_keys palette hpal classes]
    exact mem_levels classes cat hcat
  · intro cat hcat
    rw [dlookup_isSome_iff]
    exact classdict_mem_keys _ cat hcat

/-- Claim C6, witness: the concrete class map `[("a", "x"), ("b", "y")]` with
the size-faithful stand-in palette `List.range`. -/
theorem C6_witness :
    (paldict (fun n => List.range n) [("a", "x"), ("b", "y")]).map Prod.fst =
      levels [("a", "x"), ("b", "y")] ∧
      (levels [("a", "x"), ("b", "y")]).Nodup ∧
      (∀ name, mplRowColor (extendClasses ["a", "b"] [("a", "x"), ("b", "y")]) name =
        mplColColor (extendClasses ["a", "b"] [("a", "x"), ("b", "y")]) name) ∧
      ((classdict (extendClasses ["a", "b"] [("a", "x"), ("b", "y")])).map Prod.fst).Nodup := by
  have h := C6_one_color_per_category (fun n => List.range n)
    (fun n => List.length_range n) [("a", "x"), ("b", "y")] (by simp)
    ["a", "b"] ["a", "b"] ["a", "b"]
  exact ⟨h.1, h.2.1, h.2.2.2.2.2.2.1, h.2.2.2.2.1⟩

/-- Claim C7: the seaborn category-to-colour assignment depends only on the
set of distinct category values — the distinct categories are sorted and
paired with palette colours by sort position, so any two class maps with the
same category set (in particular, two calls with the same class map) yield
identical category-to-colour assignments. -/
theorem C7_palette_deterministic {Color : Type} (palette : ℕ → List Color)
    (classes₁ classes₂ : List (String × String))
    (h : (classes₁.map Prod.snd).toFinset = (classes₂.map Prod.snd).toFinset) :
    levels classes₁ = levels classes₂ ∧
      ∀ cat, categoryColor palette classes₁ cat = categoryColor palette classes₂ cat := by
  have hlev : levels classes₁ = levels classes₂ := by
    unfold levels
    refine List.eq_of_perm_of_sorted ?_ (List.sorted_insertionSort _ _)
      (List.sorted_insertionSort _ _)
    apply List.perm_of_nodup_nodup_toFinset_eq
      ((List.perm_insertionSort _ _).nodup_iff.mpr (List.nodup_dedup _))
      ((List.perm_insertionSort _ _).nodup_iff.mpr (List.nodup_dedup _))
    have h1 := levels_toFinset classes₁
    have h2 := levels_toFinset classes₂
    unfold levels at h1 h2
    rw [h1, h2, h]
  refine ⟨hlev, fun cat => ?_⟩
  rw [categoryColor, categoryColor, paldict, paldict, hlev]

/-- Claim C7, witness: two different class maps with the same category set
`{"x", "y"}` produce the same sorted levels and the same colour for `"x"`. -/
theorem C7_witness :
    levels [("a", "x"), ("b", "y")] = levels [("c", "y"), ("d", "x"), ("e", "x")] ∧
      categoryColor (fun n => List.range n) [("a", "x"), ("b", "y")] "x" =
        categoryColor (fun n => List.range n) [("c", "y"), ("d", "x"), ("e", "x")] "x" := by
  have h := C7_palette_deterministic (fun n => List.range n)
    [("a", "x"), ("b", "y")] [("c", "y"), ("d", "x"), ("e", "x")] (by decide)
  exact ⟨h.1, h.2 "x"⟩

/-! ### Claim C9 -/

theorem getD_range_map {α : Type} (n : ℕ) (f : ℕ → α) (i : ℕ) (d : α) (h : i < n) :
    ((List.range n).map f).getD i d = f i := by
  rw [List.getD_eq_getElem?_getD, List.getElem?_map, List.getElem?_range h]
  rfl

theorem getD_map_lt {α β : Type} (f : α → β) (l : List α) (i : ℕ) (d : β) (d' : α)
    (h : i < l.length) : (l.map f).getD i d = f (l.getD i d') := by
  have h' : i < (l.map f).length := by simpa using h
  rw [List.getD_eq_getElem?_getD, List.getD_eq_getElem?_getD,
    List.getElem?_eq_getElem h', List.getElem?_eq_getElem h]
  simp

/-- Claim C9: in `heatmap_mpl` the row leaf order is the complete-linkage
clustering of the square pairwise-distance matrix of the rows of `dfr`, the
column leaf order that of the columns (rows of `dfr.T`, which are shown to be
the columns of `dfr`); the distance matrices hold the metric applied to the
respective row pairs (zero diagonal); and the matrix handed to `imshow` is
the input matrix with rows and columns positionally reordered by the two
leaf orders. -/
theorem C9_reordered_by_clustering (dist : List ℚ → List ℚ → ℚ)
    (linkLeaves : List (List ℚ) → String → List ℕ) (dfr : DataFrame) :
    rowLeaves dist linkLeaves dfr =
      linkLeaves (squareformPdist dist dfr.values) "complete" ∧
      colLeaves dist linkLeaves dfr =
        linkLeaves (squareformPdist dist (transposeM dfr.values)) "complete" ∧
      (∀ a b, a < dfr.values.length → b < dfr.values.length → a ≠ b →
        entry (squareformPdist dist dfr.values) a b =
          dist (dfr.values.getD a []) (dfr.values.getD b [])) ∧
      (∀ a, a < dfr.values.length → entry (squareformPdist dist dfr.values) a a = 0) ∧
      (∀ a b, a < (transposeM dfr.values).length → b < (transposeM dfr.values).length →
        a ≠ b →
        entry (squareformPdist dist (transposeM dfr.values)) a b =
          dist ((transposeM dfr.values).getD a []) ((transposeM dfr.values).getD b [])) ∧
      (∀ j k, j < (dfr.values.headD []).length → k < dfr.values.length →
        entry (transposeM dfr.values) j k = entry dfr.values k j) ∧
      (∀ i j, i < (rowLeaves dist linkLeaves dfr).length →
        j < (colLeaves dist linkLeaves dfr).length →
        entry (drawnMatrix dist linkLeaves dfr) i j =
          entry dfr.values ((rowLeaves dist linkLeaves dfr).getD i 0)
            ((colLeaves dist linkLeaves dfr).getD j 0)) := by
  have hsq : ∀ (rows : List (List ℚ)) (a b : ℕ), a < rows.length → b < rows.length →
      entry (squareformPdist dist rows) a b =
        if a = b then 0 else dist (rows.getD a []) (rows.getD b []) := by
    intro rows a b ha hb
    rw [entry, squareformPdist, getD_range_map _ _ _ _ ha, getD_range_map _ _ _ _ hb]
  refine ⟨rfl, rfl, ?_, ?_, ?_, ?_, ?_⟩
  · intro a b ha hb hab
    rw [hsq dfr.values a b ha hb, if_neg hab]
  · intro a ha
    rw [hsq dfr.values a a ha ha, if_pos rfl]
  · intro a b ha hb hab
    have hlen : (transposeM dfr.values).length = (dfr.values.headD []).length := by
      simp [transposeM]
    rw [hsq (transposeM dfr.values) a b (hlen ▸ ha) (hlen ▸ hb), if_neg hab]
  · intro j k hj hk
    rw [entry, transposeM, getD_range_map _ _ _ _ hj, getD_map_lt _ _ _ _ [] hk]
    rfl
  · intro i j hi hj
    rw [entry, drawnMatrix, reindex, getD_map_lt _ _ _ _ 0 hi,
      getD_map_lt _ _ _ _ 0 hj]

/-- Claim C9, witness: the reordering and distance-entry equations evaluated
on a concrete 2×2 matrix, a concrete metric and the input-order stand-in
clustering. -/
theorem C9_witness :
    entry (drawnMatrix dist1 linkId dfW) 0 1 =
      entry dfW.values ((rowLeaves dist1 linkId dfW).getD 0 0)
        ((colLeaves dist1 linkId dfW).getD 1 0) ∧
      entry (squareformPdist dist1 dfW.values) 0 1 =
        dist1 (dfW.values.getD 0 []) (dfW.values.getD 1 []) := by
  have h := C9_reordered_by_clustering dist1 linkId dfW
  refine ⟨h.2.2.2.2.2.2 0 1 ?_ ?_, h.2.2.1 0 1 ?_ ?_ ?_⟩
  · simp [rowLeaves, linkId, squareformPdist, dfW]
  · simp [colLeaves, linkId, squareformPdist, transposeM, dfW]
  · simp [dfW]
  · simp [dfW]
  · decide

end PyaniGraphics
